import Mathlib

/-!
Shallow embedding of the rating-normalization and reconciliation core of
`pmdbmapper.py` (class `MovieTVCollector`), together with theorems checking
the specification's claims against it.

Python floats are modelled as exact rationals (`ℚ`); `round(x, 1)` is
modelled as ideal round-half-to-even at one decimal.  `float(str)` is
modelled on finite decimal literals (optional sign, digits, one optional
dot, surrounding whitespace); exotic literals (exponents, `inf`, `nan`,
digit underscores) are out of the model.  JSON-decoded Python values are
modelled by the inductive `PyVal`, and the Python dict by an association
list in insertion order.
-/

namespace PMDB

/-- Python runtime errors relevant to the embedded code.  `valueError` is the
only one the source catches (`except ValueError`); the others escape. -/
inductive PyErr where
  | typeError
  | attributeError
  | valueError
deriving DecidableEq, Repr

/-- A JSON-decoded Python value: `None`, `bool`, a number (int and float are
conflated into `ℚ`), `str`, `list`, or `dict` with string keys. -/
inductive PyVal where
  | vnone
  | vbool (b : Bool)
  | vnum (q : ℚ)
  | vstr (s : String)
  | vlist (xs : List PyVal)
  | vdict (kvs : List (String × PyVal))

/-- Python truthiness of a value (`if not data`, `if tvdb_id`, ...). -/
def pyTruthy : PyVal → Bool
  | .vnone => false
  | .vbool b => b
  | .vnum q => decide (q ≠ 0)
  | .vstr s => decide (s ≠ "")
  | .vlist xs => !xs.isEmpty
  | .vdict kvs => !kvs.isEmpty

/-- `d[k]` / `k in d` lookup on a Python dict (keys are unique in a real
dict; we take the first binding). -/
def dictGet (kvs : List (String × PyVal)) (k : String) : Option PyVal :=
  match kvs with
  | [] => none
  | p :: rest => if p.1 = k then some p.2 else dictGet rest k

/-- Characters stripped by Python `str.strip()` with no argument. -/
def pySpace (c : Char) : Bool :=
  c = ' ' ∨ c = '\t' ∨ c = '\n' ∨ c = '\r' ∨ c = '\x0b' ∨ c = '\x0c'

/-- Python `str.strip()`: drop leading and trailing whitespace. -/
def pyStrip (cs : List Char) : List Char :=
  ((cs.dropWhile pySpace).reverse.dropWhile pySpace).reverse

/-- Python `'%'` removal: `str.replace('%', '')` removes every occurrence of
the character, anywhere in the string. -/
def removePct (cs : List Char) : List Char :=
  cs.filter (fun c => c ≠ '%')

/-- Numeric value of a digit string, most significant first. -/
def natOfDigits (cs : List Char) : ℕ :=
  cs.foldl (fun n c => 10 * n + (c.toNat - '0'.toNat)) 0

/-- A decimal digit `'0'`-`'9'`. -/
def isDig (c : Char) : Bool :=
  decide ('0'.toNat ≤ c.toNat ∧ c.toNat ≤ '9'.toNat)

/-- `float(s)` on an already-stripped character list: digits with one
optional dot, at least one digit overall. -/
def parseFloatCore (cs : List Char) : Option ℚ :=
  let intPart := cs.takeWhile isDig
  let rest := cs.dropWhile isDig
  match rest with
  | [] => if intPart = [] then none else some (natOfDigits intPart)
  | '.' :: frac =>
    if frac.all isDig ∧ (intPart ≠ [] ∨ frac ≠ []) then
      some ((natOfDigits intPart : ℚ) + (natOfDigits frac : ℚ) / (10 ^ frac.length))
    else none
  | _ => none

/-- Python `float(s)` on a string: strip whitespace, optional sign, then a
finite decimal literal. -/
def parseFloatChars (cs : List Char) : Option ℚ :=
  match pyStrip cs with
  | '+' :: rest => parseFloatCore rest
  | '-' :: rest => (parseFloatCore rest).map (fun q => -q)
  | stripped => parseFloatCore stripped

/-- Python `float(v)` on an arbitrary value: numbers and booleans convert,
strings are parsed (failure is a `ValueError`), anything else is a
`TypeError` - which the source's `except ValueError` does NOT catch. -/
def pyFloat : PyVal → Except PyErr ℚ
  | .vnum q => .ok q
  | .vbool b => .ok (if b then 1 else 0)
  | .vstr s =>
    match parseFloatChars s.data with
    | some q => .ok q
    | none => .error .valueError
  | _ => .error .typeError

/-- Ideal round-half-to-even to an integer, modelling Python `round`. -/
def roundHalfEven (q : ℚ) : ℤ :=
  let n : ℤ := ⌊q⌋
  let f : ℚ := q - n
  if f < 1/2 then n
  else if 1/2 < f then n + 1
  else if n % 2 = 0 then n else n + 1

/-- Python `round(q, 1)`. -/
def round1 (q : ℚ) : ℚ := (roundHalfEven (q * 10) : ℚ) / 10

/-- The accumulating `ratings` dict of `parse_mdblist_ratings`:
source-code label to score, in insertion order. -/
abbrev Ratings := List (String × ℚ)

/-- Lookup in the ratings dict. -/
def getR : Ratings → String → Option ℚ
  | [], _ => none
  | p :: rs, k => if p.1 = k then some p.2 else getR rs k

/-- `k in ratings` membership test. -/
def memR : Ratings → String → Bool
  | [], _ => false
  | p :: rs, k => if p.1 = k then true else memR rs k

/-- Replace the value stored under an existing key, keeping its position. -/
def replaceR : Ratings → String → ℚ → Ratings
  | [], _, _ => []
  | p :: rs, k, v => if p.1 = k then (k, v) :: replaceR rs k v else p :: replaceR rs k v

/-- Python dict assignment `ratings[k] = v`: overwrite in place when the key
exists, append otherwise. -/
def setR (rs : Ratings) (k : String) (v : ℚ) : Ratings :=
  if memR rs k then replaceR rs k v else rs ++ [(k, v)]

/-- Python `str.lower()` (the source names involved are ASCII). -/
def pyLowerStr (s : String) : String :=
  String.mk (s.data.map Char.toLower)

/-- `v.lower()` on an arbitrary value: only strings have `.lower`, anything
else raises `AttributeError`. -/
def pyLowerV : PyVal → Except PyErr String
  | .vstr s => .ok (pyLowerStr s)
  | _ => .error .attributeError

/-- `r.get(k, default)`: only dicts have `.get`; anything else raises
`AttributeError`. -/
def pyGetDict (r : PyVal) (k : String) (dflt : PyVal) : Except PyErr PyVal :=
  match r with
  | .vdict kvs => .ok ((dictGet kvs k).getD dflt)
  | _ => .error .attributeError

/-- `for r in v`: lists iterate over elements, strings over one-character
strings, dicts over their keys; other values raise `TypeError`. -/
def pyIter : PyVal → Except PyErr (List PyVal)
  | .vlist xs => .ok xs
  | .vstr s => .ok (s.data.map (fun c => .vstr (String.mk [c])))
  | .vdict kvs => .ok (kvs.map (fun p => .vstr p.1))
  | _ => .error .typeError

/-- Case-insensitive-ready substring test: Python `needle in hay`. -/
def strContains (hay needle : String) : Bool :=
  decide (needle.data <:+: hay.data)

/-- Lines 163-171: `clean_val = str(val).replace('%', '').strip()`, then
split at the first `/` (numerator) or parse the whole cleaned string. -/
def parseCleanChars (cs : List Char) : Option ℚ :=
  let clean := pyStrip (removePct cs)
  if clean.contains '/' then parseFloatChars (clean.takeWhile (fun c => c ≠ '/'))
  else parseFloatChars clean

/-- `float(str(val).replace('%','').strip())` with the `/`-numerator rule,
on an arbitrary entry value.  `str` of a number round-trips through `float`
to the same number; `str` of a bool, list or dict never parses as a float
(so those yield `None` here, the `ValueError`-skipped outcome). -/
def parseEntryValue : PyVal → Option ℚ
  | .vnum q => some q
  | .vstr s => parseCleanChars s.data
  | _ => none

/-- Rescale for IMDb-style 0-10 values (lines 179, 207). -/
def scale10 (score : ℚ) : ℚ :=
  if score ≤ 10 then score * 10 else score

/-- Rescale for Letterboxd values (line 202): 0-5 scale times 20, 0-10
scale times 10, otherwise unchanged. -/
def lbScale (score : ℚ) : ℚ :=
  if score ≤ 5 then score * 20 else if score ≤ 10 then score * 10 else score

/-- Lines 173-208: the `if`/`elif` dispatch on the lower-cased source name,
applied to an already-parsed score.  (The surrounding
`except (ValueError, IndexError)` is dead: no operation here raises.) -/
def applyRules (acc : Ratings) (source : String) (score : ℚ) : Ratings :=
  if strContains source "internet movie database" then
    if memR acc "IM" = false then
      (if 0 < scale10 score then setR acc "IM" (round1 (scale10 score)) else acc)
    else acc
  else if source = "rotten tomatoes" then
    (if strContains source "audience" = false then
      (if 0 < score then setR acc "RT" score else acc)
    else acc)
  else if strContains source "tomatoes" ∧ strContains source "audience" then
    (if 0 < score then setR acc "PC" score else acc)
  else if source = "metacritic" then
    (if strContains source "user" = false ∧ memR acc "MC" = false then
      (if 10 < score then setR acc "MC" score else acc)
    else acc)
  else if strContains source "letterboxd" then
    (if 0 < lbScale score then setR acc "LB" (round1 (lbScale score)) else acc)
  else if strContains source "trakt" then
    (if 0 < scale10 score then setR acc "TR" (round1 (scale10 score)) else acc)
  else acc

/-- Lines 160-208: the value half of one loop iteration, which cannot
raise: skip on a `None` value, skip on an unparseable value
(`except ValueError: continue`), otherwise dispatch the rules. -/
def entryBody (acc : Ratings) (source : String) (val : PyVal) : Ratings :=
  match val with
  | .vnone => acc
  | _ =>
    match parseEntryValue val with
    | none => acc
    | some score => applyRules acc source score

/-- Lines 156-211: one iteration of the entry loop.  `r.get('source', '')`
and `.lower()` can raise on ill-typed entries; the rest skips and
continues. -/
def processEntry (acc : Ratings) (r : PyVal) : Except PyErr Ratings :=
  match pyGetDict r "source" (.vstr "") with
  | .error e => .error e
  | .ok sv =>
    match pyLowerV sv with
    | .error e => .error e
    | .ok source =>
      match pyGetDict r "value" .vnone with
      | .error e => .error e
      | .ok val => .ok (entryBody acc source val)

/-- Python `v != 'N/A'` is false exactly when `v` is that string. -/
def isNA : PyVal → Bool
  | .vstr s => s = "N/A"
  | _ => false

/-- Lines 140-144: the top-level `Metascore` step.  Note the `try` catches
only `ValueError`: `float` of a non-string non-number (e.g. JSON `null`)
raises an uncaught `TypeError`. -/
def step_metascore (d : List (String × PyVal)) (acc : Ratings) : Except PyErr Ratings :=
  match dictGet d "Metascore" with
  | none => .ok acc
  | some v =>
    if isNA v then .ok acc
    else
      match pyFloat v with
      | .ok mc => .ok (if 0 < mc then setR acc "MC" mc else acc)
      | .error .valueError => .ok acc
      | .error e => .error e

/-- Lines 146-151: the top-level `imdbRating` step; a 0-10 value is stored
times ten rounded to one decimal, larger values verbatim. -/
def step_imdbtop (d : List (String × PyVal)) (acc : Ratings) : Except PyErr Ratings :=
  match dictGet d "imdbRating" with
  | none => .ok acc
  | some v =>
    if isNA v then .ok acc
    else
      match pyFloat v with
      | .ok im => .ok (if 0 < im then setR acc "IM" (if im ≤ 10 then round1 (im * 10) else im) else acc)
      | .error .valueError => .ok acc
      | .error e => .error e

/-- Line 154: `raw_ratings = data.get('ratings', [])`, then the loop header
`for r in raw_ratings` (which raises on non-iterable values). -/
def getRatingsList (d : List (String × PyVal)) : Except PyErr (List PyVal) :=
  match dictGet d "ratings" with
  | none => .ok []
  | some v => pyIter v

/-- Lines 213-220: the top-level `score` fallback for Trakt, only when the
field is truthy and `TR` is still unset. -/
def step_traktFallback (d : List (String × PyVal)) (acc : Ratings) : Except PyErr Ratings :=
  match dictGet d "score" with
  | none => .ok acc
  | some v =>
    if pyTruthy v ∧ memR acc "TR" = false then
      match pyFloat v with
      | .ok tr => .ok (if 0 < tr then setR acc "TR" (round1 tr) else acc)
      | .error .valueError => .ok acc
      | .error e => .error e
    else .ok acc

/-- Lines 130-222: `parse_mdblist_ratings`.  The argument is `None` or a
dict (the declared parameter type); the result is the ratings dict, or the
Python exception that escapes. -/
def parse_mdblist_ratings (data : Option (List (String × PyVal))) : Except PyErr Ratings :=
  match data with
  | none => .ok []
  | some d =>
    if d.isEmpty then .ok []
    else
      match step_metascore d [] with
      | .error e => .error e
      | .ok r1 =>
        match step_imdbtop d r1 with
        | .error e => .error e
        | .ok r2 =>
          match getRatingsList d with
          | .error e => .error e
          | .ok entries =>
            match List.foldlM processEntry r2 entries with
            | .error e => .error e
            | .ok r3 => step_traktFallback d r3

/-- Lines 224-233: `parse_tmdb_rating`. -/
def parse_tmdb_rating (tmdb_details : Option (List (String × PyVal))) : Option ℚ :=
  match tmdb_details with
  | none => none
  | some d =>
    match dictGet d "vote_average" with
    | some (.vnum q) => if pyTruthy (.vnum q) ∧ 0 < q then some (round1 (q * 10)) else none
    | _ => none

/-- Lines 512-515: the `new_ratings` dict comprehension -
`label.upper() not in existing_labels`. -/
def partitionNew (ratings : Ratings) (existingLabels : List String) : Ratings :=
  ratings.filter (fun p => (existingLabels.contains p.1.toUpper) = false)

/-- Lines 516-519: the `existing_ratings` dict comprehension -
`label.upper() in existing_labels`. -/
def partitionExisting (ratings : Ratings) (existingLabels : List String) : Ratings :=
  ratings.filter (fun p => existingLabels.contains p.1.toUpper)

/-- `existing_mappings[t]` lookup in the registry snapshot. -/
def lookupSnap (snap : List (String × List String)) (t : String) : Option (List String) :=
  match snap with
  | [] => none
  | p :: rest => if p.1 = t then some p.2 else lookupSnap rest t

/-- Truthiness of the optional TVDB id (`if tvdb_id`). -/
def truthyStr (s : Option String) : Bool :=
  match s with
  | some v => decide (v ≠ "")
  | none => false

/-- Lines 503-505 and 528-534: `imdb_exists` / `tvdb_exists` and the
construction of `mappings_to_submit`. -/
def mappingsToSubmit (imdbId : String) (tvdbId : Option String)
    (snap : List (String × List String)) : List (String × String) :=
  let imdb_exists : Bool :=
    match lookupSnap snap "imdb" with
    | some l => l.contains imdbId
    | none => false
  let tvdb_exists : Bool :=
    truthyStr tvdbId &&
      (match lookupSnap snap "tvdb" with
       | some l => l.contains (tvdbId.getD "")
       | none => false)
  (if imdb_exists = false then [("imdb", imdbId)] else []) ++
    (if truthyStr tvdbId && tvdb_exists = false then [("tvdb", tvdbId.getD "")] else [])

/-- The mapping-selection slice of `process_item` (lines 468-473, 480-488,
503-505, 528-534): abort (`None`) when the IMDb id is falsy, extract the
TVDB id only for TV items, then diff against the snapshot.  TVDB ids are
taken already in string form (the source applies `str` to the raw value). -/
def selectMappings (mediaType : String) (imdbIdRaw : Option String)
    (payloadTvdb : Option String) (snap : List (String × List String)) :
    Option (List (String × String)) :=
  match imdbIdRaw with
  | none => none
  | some imdbId =>
    if imdbId = "" then none
    else some (mappingsToSubmit imdbId
      (if mediaType = "tv" then payloadTvdb else none) snap)

/-! ### Basic lemmas about the ratings-dict operations -/

theorem memR_eq_isSome_getR (rs : Ratings) (k : String) :
    memR rs k = (getR rs k).isSome := by
  induction rs with
  | nil => rfl
  | cons p rest ih =>
    by_cases h : p.1 = k <;> simp [memR, getR, h, ih]

theorem getR_append (rs l : Ratings) (k : String) :
    getR (rs ++ l) k = ((getR rs k).map some).getD (getR l k) := by
  induction rs with
  | nil => simp [getR]
  | cons p rest ih =>
    by_cases h : p.1 = k <;> simp [getR, h, ih]

theorem getR_replaceR_self (rs : Ratings) (k : String) (v : ℚ)
    (h : memR rs k = true) : getR (replaceR rs k v) k = some v := by
  induction rs with
  | nil => simp [memR] at h
  | cons p rest ih =>
    by_cases hp : p.1 = k
    · simp [replaceR, getR, hp]
    · simp [memR, hp] at h
      simp [replaceR, getR, hp, ih h]

theorem getR_replaceR_ne (rs : Ratings) (k : String) (v : ℚ) (k' : String)
    (h : k ≠ k') : getR (replaceR rs k v) k' = getR rs k' := by
  induction rs with
  | nil => rfl
  | cons p rest ih =>
    by_cases hp : p.1 = k
    · simp [replaceR, getR, hp, h, ih]
    · simp [replaceR, getR, hp, ih]

theorem getR_none_of_memR_false (rs : Ratings) (k : String)
    (h : memR rs k = false) : getR rs k = none := by
  have hm := memR_eq_isSome_getR rs k
  rw [h] at hm
  cases hg : getR rs k with
  | none => rfl
  | some w => rw [hg] at hm; simp at hm

theorem getR_setR_self (rs : Ratings) (k : String) (v : ℚ) :
    getR (setR rs k v) k = some v := by
  unfold setR
  by_cases h : memR rs k
  · simp [h, getR_replaceR_self rs k v h]
  · have h' : memR rs k = false := by simpa using h
    simp [h', getR_append, getR_none_of_memR_false rs k h', getR]

theorem getR_setR_ne (rs : Ratings) (k : String) (v : ℚ) (k' : String)
    (h : k ≠ k') : getR (setR rs k v) k' = getR rs k' := by
  unfold setR
  by_cases hm : memR rs k
  · simp [hm, getR_replaceR_ne rs k v k' h]
  · simp [hm, getR_append]
    cases hg : getR rs k' with
    | some w => simp [getR, h]
    | none => simp [getR, h]

theorem mem_replaceR (p : String × ℚ) (rs : Ratings) (k : String) (v : ℚ)
    (h : p ∈ replaceR rs k v) : p ∈ rs ∨ p = (k, v) := by
  induction rs with
  | nil => simp [replaceR] at h
  | cons q rest ih =>
    by_cases hq : q.1 = k
    · simp [replaceR, hq] at h
      rcases h with h | h
      · right; exact h
      · rcases ih h with h2 | h2
        · left; simp [h2]
        · right; exact h2
    · simp [replaceR, hq] at h
      rcases h with h | h
      · left; simp [h]
      · rcases ih h with h2 | h2
        · left; simp [h2]
        · right; exact h2

theorem mem_setR (p : String × ℚ) (rs : Ratings) (k : String) (v : ℚ)
    (h : p ∈ setR rs k v) : p ∈ rs ∨ p = (k, v) := by
  unfold setR at h
  by_cases hm : memR rs k
  · simp [hm] at h
    exact mem_replaceR p rs k v h
  · simp [hm] at h
    rcases h with h | h
    · left; exact h
    · right; simp [h]

theorem roundHalfEven_nonneg (q : ℚ) (h : 0 ≤ q) : 0 ≤ roundHalfEven q := by
  unfold roundHalfEven
  have hf : (0 : ℤ) ≤ ⌊q⌋ := Int.floor_nonneg.mpr h
  simp only []
  split
  · exact hf
  · split
    · omega
    · split
      · exact hf
      · omega

theorem round1_nonneg (q : ℚ) (h : 0 ≤ q) : 0 ≤ round1 q := by
  unfold round1
  have : (0 : ℚ) ≤ (roundHalfEven (q * 10) : ℚ) := by
    exact_mod_cast roundHalfEven_nonneg (q * 10) (by positivity)
  positivity

/-! ### Dispatch structure of the entry-list rules -/

/-- The source-matching rules of lines 173-208 in their textual order: the
code each lower-cased source name is dispatched to, if any. -/
def srcCode (source : String) : Option String :=
  if strContains source "internet movie database" then some "IM"
  else if source = "rotten tomatoes" then some "RT"
  else if strContains source "tomatoes" ∧ strContains source "audience" then some "PC"
  else if source = "metacritic" then some "MC"
  else if strContains source "letterboxd" then some "LB"
  else if strContains source "trakt" then some "TR"
  else none

/-- One entry-rule application either leaves the dict unchanged or writes a
single nonnegative value under one code, with the guards the code imposes
on `IM` and `MC`. -/
theorem applyRules_shape (acc : Ratings) (src : String) (v : ℚ) :
    applyRules acc src v = acc ∨
    ∃ w : ℚ, 0 ≤ w ∧
      ((applyRules acc src v = setR acc "IM" w ∧ memR acc "IM" = false) ∨
       applyRules acc src v = setR acc "RT" w ∨
       applyRules acc src v = setR acc "PC" w ∨
       (applyRules acc src v = setR acc "MC" w ∧ memR acc "MC" = false ∧ 10 < w) ∨
       applyRules acc src v = setR acc "LB" w ∨
       applyRules acc src v = setR acc "TR" w) := by
  unfold applyRules
  split_ifs with h1 h2 h3 h4 h5 h6 h7 h8 h9 h10 h11 h12 h13 h14 h15
  all_goals try (left; rfl)
  · right
    exact ⟨round1 (scale10 v), round1_nonneg _ (le_of_lt h3), Or.inl ⟨rfl, h2⟩⟩
  · right
    exact ⟨v, le_of_lt h6, Or.inr (Or.inl rfl)⟩
  · right
    exact ⟨v, le_of_lt h8, Or.inr (Or.inr (Or.inl rfl))⟩
  · right
    exact ⟨v, by linarith, Or.inr (Or.inr (Or.inr (Or.inl ⟨rfl, h10.2, h11⟩)))⟩
  · right
    exact ⟨round1 (lbScale v), round1_nonneg _ (le_of_lt h13), Or.inr (Or.inr (Or.inr (Or.inr (Or.inl rfl))))⟩
  · right
    exact ⟨round1 (scale10 v), round1_nonneg _ (le_of_lt h15), Or.inr (Or.inr (Or.inr (Or.inr (Or.inr rfl))))⟩

/-- An entry-rule application never touches a key other than the code its
source name is dispatched to. -/
theorem applyRules_untouched (acc : Ratings) (src : String) (v : ℚ) (c : String)
    (h : srcCode src ≠ some c) :
    getR (applyRules acc src v) c = getR acc c := by
  unfold applyRules
  unfold srcCode at h
  split_ifs at h ⊢ <;>
    first
      | rfl
      | exact getR_setR_ne _ _ _ _ (by simpa using h)

/-- A populated `IM` is never changed by an entry rule. -/
theorem applyRules_IM_pres (acc : Ratings) (src : String) (v : ℚ) (x : ℚ)
    (h : getR acc "IM" = some x) :
    getR (applyRules acc src v) "IM" = some x := by
  rcases applyRules_shape acc src v with heq | ⟨w, hw, hcase⟩
  · rw [heq, h]
  · rcases hcase with ⟨heq, hmem⟩ | heq | heq | ⟨heq, hmem, hgt⟩ | heq | heq
    · rw [memR_eq_isSome_getR, h] at hmem
      simp at hmem
    all_goals rw [heq, getR_setR_ne _ _ _ _ (by decide), h]

/-- A populated `MC` is never changed by an entry rule. -/
theorem applyRules_MC_pres (acc : Ratings) (src : String) (v : ℚ) (x : ℚ)
    (h : getR acc "MC" = some x) :
    getR (applyRules acc src v) "MC" = some x := by
  rcases applyRules_shape acc src v with heq | ⟨w, hw, hcase⟩
  · rw [heq, h]
  · rcases hcase with ⟨heq, hmem⟩ | heq | heq | ⟨heq, hmem, hgt⟩ | heq | heq
    · rw [heq, getR_setR_ne _ _ _ _ (by decide), h]
    · rw [heq, getR_setR_ne _ _ _ _ (by decide), h]
    · rw [heq, getR_setR_ne _ _ _ _ (by decide), h]
    · rw [memR_eq_isSome_getR, h] at hmem
      simp at hmem
    · rw [heq, getR_setR_ne _ _ _ _ (by decide), h]
    · rw [heq, getR_setR_ne _ _ _ _ (by decide), h]

/-- Any `MC` present after an entry rule was either there before or was
just written with a value above ten. -/
theorem applyRules_MC_new (acc : Ratings) (src : String) (v : ℚ) (m : ℚ)
    (h : getR (applyRules acc src v) "MC" = some m) :
    getR acc "MC" = some m ∨ 10 < m := by
  rcases applyRules_shape acc src v with heq | ⟨w, hw, hcase⟩
  · rw [heq] at h; left; exact h
  · rcases hcase with ⟨heq, hmem⟩ | heq | heq | ⟨heq, hmem, hgt⟩ | heq | heq
    · rw [heq, getR_setR_ne _ _ _ _ (by decide)] at h; left; exact h
    · rw [heq, getR_setR_ne _ _ _ _ (by decide)] at h; left; exact h
    · rw [heq, getR_setR_ne _ _ _ _ (by decide)] at h; left; exact h
    · rw [heq, getR_setR_self] at h
      right
      rw [Option.some_inj] at h
      rw [← h]
      exact hgt
    · rw [heq, getR_setR_ne _ _ _ _ (by decide)] at h; left; exact h
    · rw [heq, getR_setR_ne _ _ _ _ (by decide)] at h; left; exact h

/-- Entry rules only insert nonnegative scores. -/
theorem applyRules_nonneg (acc : Ratings) (src : String) (v : ℚ)
    (h : ∀ p ∈ acc, 0 ≤ p.2) :
    ∀ p ∈ applyRules acc src v, 0 ≤ p.2 := by
  rcases applyRules_shape acc src v with heq | ⟨w, hw, hcase⟩
  · rw [heq]; exact h
  · intro p hp
    have hset : ∀ k, p ∈ setR acc k w → 0 ≤ p.2 := by
      intro k hk
      rcases mem_setR p acc k w hk with hin | heq2
      · exact h p hin
      · rw [heq2]; exact hw
    rcases hcase with ⟨heq, _⟩ | heq | heq | ⟨heq, _, _⟩ | heq | heq <;>
      (rw [heq] at hp)
    · exact hset _ hp
    · exact hset _ hp
    · exact hset _ hp
    · exact hset _ hp
    · exact hset _ hp
    · exact hset _ hp

/-! ### Shape of the surrounding steps -/

/-- A successful loop iteration either skips the entry or applies the
dispatch rules to some parsed source and score. -/
theorem entryBody_cases (acc : Ratings) (s : String) (val : PyVal) :
    entryBody acc s val = acc ∨ ∃ score, entryBody acc s val = applyRules acc s score := by
  unfold entryBody
  split
  · exact Or.inl rfl
  · split
    · exact Or.inl rfl
    · exact Or.inr ⟨_, rfl⟩

theorem processEntry_ok (acc : Ratings) (r : PyVal) (acc' : Ratings)
    (h : processEntry acc r = .ok acc') :
    acc' = acc ∨ ∃ src score, acc' = applyRules acc src score := by
  unfold processEntry at h
  repeat' split at h
  all_goals try exact Except.noConfusion h
  all_goals injection h with h
  all_goals subst h
  exact (entryBody_cases acc _ _).elim (fun he => Or.inl he)
    (fun he => he.elim (fun score hsc => Or.inr ⟨_, score, hsc⟩))

/-- A successful Metascore step either skips or writes a positive `MC`. -/
theorem step_metascore_ok (d : List (String × PyVal)) (acc acc' : Ratings)
    (h : step_metascore d acc = .ok acc') :
    acc' = acc ∨ ∃ w, 0 < w ∧ acc' = setR acc "MC" w := by
  unfold step_metascore at h
  repeat' split at h
  all_goals try exact Except.noConfusion h
  all_goals injection h with h
  all_goals subst h
  all_goals try (left; rfl)
  all_goals right
  all_goals exact ⟨_, by assumption, rfl⟩

/-- A successful imdbRating step either skips or writes a nonnegative
`IM`. -/
theorem step_imdbtop_ok (d : List (String × PyVal)) (acc acc' : Ratings)
    (h : step_imdbtop d acc = .ok acc') :
    acc' = acc ∨ ∃ w, 0 ≤ w ∧ acc' = setR acc "IM" w := by
  unfold step_imdbtop at h
  repeat' split at h
  all_goals try exact Except.noConfusion h
  all_goals injection h with h
  all_goals subst h
  all_goals try (left; rfl)
  all_goals right
  all_goals refine ⟨_, ?_, rfl⟩
  all_goals first
    | exact round1_nonneg _ (by linarith)
    | linarith

/-- A successful Trakt-fallback step either skips or writes a nonnegative
`TR`. -/
theorem step_traktFallback_ok (d : List (String × PyVal)) (acc acc' : Ratings)
    (h : step_traktFallback d acc = .ok acc') :
    acc' = acc ∨ ∃ w, 0 ≤ w ∧ acc' = setR acc "TR" w := by
  unfold step_traktFallback at h
  repeat' split at h
  all_goals try exact Except.noConfusion h
  all_goals injection h with h
  all_goals subst h
  all_goals try (left; rfl)
  all_goals right
  all_goals exact ⟨_, round1_nonneg _ (by linarith), rfl⟩

/-- The Trakt fallback never fires once `TR` is populated. -/
theorem step_traktFallback_of_TR_set (d : List (String × PyVal)) (acc : Ratings)
    (h : (getR acc "TR").isSome) : step_traktFallback d acc = .ok acc := by
  have hm : memR acc "TR" = true := by rw [memR_eq_isSome_getR, h]
  unfold step_traktFallback
  split
  · rfl
  · rw [if_neg]
    simp [hm]

/-- Any invariant preserved by one loop iteration is preserved by the whole
entry loop. -/
theorem foldlM_processEntry_inv (P : Ratings → Prop)
    (hstep : ∀ acc r acc', P acc → processEntry acc r = .ok acc' → P acc') :
    ∀ (l : List PyVal) (a b : Ratings), P a →
      List.foldlM processEntry a l = .ok b → P b := by
  intro l
  induction l with
  | nil =>
    intro a b ha hf
    simp only [List.foldlM_nil] at hf
    injection hf with hf
    rw [← hf]
    exact ha
  | cons x xs ih =>
    intro a b ha hf
    simp only [List.foldlM_cons] at hf
    cases hpe : processEntry a x with
    | error e => rw [hpe] at hf; exact Except.noConfusion hf
    | ok a' =>
      rw [hpe] at hf
      exact ih a' b (hstep a x a' ha hpe) hf

/-! ### Whole-parse decomposition and invariants -/

/-- A successful parse is either trivially empty or runs the four-stage
pipeline to completion. -/
theorem parse_ok_cases (data : Option (List (String × PyVal))) (rs : Ratings)
    (h : parse_mdblist_ratings data = .ok rs) :
    (rs = [] ∧ (data = none ∨ ∃ d, data = some d ∧ d.isEmpty = true)) ∨
    ∃ d r1 r2 entries r3, data = some d ∧ d.isEmpty = false ∧
      step_metascore d [] = .ok r1 ∧
      step_imdbtop d r1 = .ok r2 ∧
      getRatingsList d = .ok entries ∧
      List.foldlM processEntry r2 entries = .ok r3 ∧
      step_traktFallback d r3 = .ok rs := by
  cases data with
  | none =>
    simp only [parse_mdblist_ratings] at h
    injection h with h; left; exact ⟨h.symm, Or.inl rfl⟩
  | some d =>
    simp only [parse_mdblist_ratings] at h
    by_cases he : d.isEmpty = true
    · rw [if_pos he] at h
      injection h with h
      left
      exact ⟨h.symm, Or.inr ⟨d, rfl, he⟩⟩
    · rw [if_neg he] at h
      right
      cases h1 : step_metascore d [] with
      | error e => rw [h1] at h; exact Except.noConfusion h
      | ok r1 =>
        rw [h1] at h
        simp only [] at h
        cases h2 : step_imdbtop d r1 with
        | error e => rw [h2] at h; exact Except.noConfusion h
        | ok r2 =>
          rw [h2] at h
          simp only [] at h
          cases h3 : getRatingsList d with
          | error e => rw [h3] at h; exact Except.noConfusion h
          | ok entries =>
            rw [h3] at h
            simp only [] at h
            cases h4 : List.foldlM processEntry r2 entries with
            | error e => rw [h4] at h; exact Except.noConfusion h
            | ok r3 =>
              rw [h4] at h
              simp only [] at h
              exact ⟨d, r1, r2, entries, r3, rfl, by simpa using he, h1, h2, h3, h4, h⟩

/-- Inserting a nonnegative value keeps all stored values nonnegative. -/
theorem nonneg_setR (rs : Ratings) (k : String) (w : ℚ)
    (h : ∀ p ∈ rs, 0 ≤ p.2) (hw : 0 ≤ w) : ∀ p ∈ setR rs k w, 0 ≤ p.2 := by
  intro p hp
  rcases mem_setR p rs k w hp with h' | h'
  · exact h p h'
  · rw [h']; exact hw

/-- Every value a successful parse returns is nonnegative. -/
theorem parse_nonneg (data : Option (List (String × PyVal))) (rs : Ratings)
    (h : parse_mdblist_ratings data = .ok rs) : ∀ p ∈ rs, 0 ≤ p.2 := by
  rcases parse_ok_cases data rs h with ⟨hrs, _⟩ | ⟨d, r1, r2, entries, r3, _, _, h1, h2, h3, h4, h5⟩
  · rw [hrs]; intro p hp; simp at hp
  · have inv0 : ∀ p ∈ ([] : Ratings), 0 ≤ p.2 := by intro p hp; simp at hp
    have inv1 : ∀ p ∈ r1, 0 ≤ p.2 := by
      rcases step_metascore_ok d [] r1 h1 with he | ⟨w, hw, he⟩
      · rw [he]; exact inv0
      · rw [he]; exact nonneg_setR _ _ _ inv0 (le_of_lt hw)
    have inv2 : ∀ p ∈ r2, 0 ≤ p.2 := by
      rcases step_imdbtop_ok d r1 r2 h2 with he | ⟨w, hw, he⟩
      · rw [he]; exact inv1
      · rw [he]; exact nonneg_setR _ _ _ inv1 hw
    have inv3 : ∀ p ∈ r3, 0 ≤ p.2 := by
      refine foldlM_processEntry_inv (fun acc => ∀ p ∈ acc, 0 ≤ p.2) ?_ entries r2 r3 inv2 h4
      intro acc r acc' ha hpe
      rcases processEntry_ok acc r acc' hpe with he | ⟨src, score, he⟩
      · rw [he]; exact ha
      · rw [he]; exact applyRules_nonneg acc src score ha
    rcases step_traktFallback_ok d r3 rs h5 with he | ⟨w, hw, he⟩
    · rw [he]; exact inv3
    · rw [he]; exact nonneg_setR _ _ _ inv3 hw

/-! ### The usable top-level Metascore -/

/-- The positive numeric value of a present, non-`'N/A'`, parseable
top-level `Metascore`, when there is one. -/
def usableMetascore (d : List (String × PyVal)) : Option ℚ :=
  match dictGet d "Metascore" with
  | none => none
  | some v =>
    if isNA v then none
    else
      match pyFloat v with
      | .ok q => if 0 < q then some q else none
      | .error _ => none

/-- With a usable top-level Metascore the first step stores it. -/
theorem step_metascore_of_usable (d : List (String × PyVal)) (acc : Ratings) (q : ℚ)
    (hu : usableMetascore d = some q) :
    step_metascore d acc = .ok (setR acc "MC" q) := by
  unfold usableMetascore at hu
  unfold step_metascore
  cases hdg : dictGet d "Metascore" with
  | none => rw [hdg] at hu; exact Option.noConfusion hu
  | some v =>
    rw [hdg] at hu
    simp only [] at hu
    simp only []
    by_cases hna : isNA v = true
    · rw [if_pos hna] at hu; exact Option.noConfusion hu
    · rw [if_neg hna] at hu
      rw [if_neg hna]
      cases hf : pyFloat v with
      | ok q' =>
        rw [hf] at hu
        simp only [] at hu
        by_cases hq : 0 < q'
        · rw [if_pos hq] at hu
          injection hu with hu
          subst hu
          simp only []
          rw [if_pos hq]
        · rw [if_neg hq] at hu; exact Option.noConfusion hu
      | error e =>
        rw [hf] at hu
        simp only [] at hu
        exact Option.noConfusion hu

/-- Without a usable top-level Metascore the first step, when it does not
raise, leaves the dict unchanged. -/
theorem step_metascore_of_unusable (d : List (String × PyVal)) (acc acc' : Ratings)
    (hu : usableMetascore d = none) (h : step_metascore d acc = .ok acc') :
    acc' = acc := by
  unfold usableMetascore at hu
  unfold step_metascore at h
  cases hdg : dictGet d "Metascore" with
  | none =>
    rw [hdg] at h; injection h with h; exact h.symm
  | some v =>
    rw [hdg] at h hu
    simp only [] at h hu
    by_cases hna : isNA v = true
    · rw [if_pos hna] at h; injection h with h; exact h.symm
    · rw [if_neg hna] at h hu
      cases hf : pyFloat v with
      | ok q' =>
        rw [hf] at h hu
        simp only [] at h hu
        by_cases hq : 0 < q'
        · rw [if_pos hq] at hu; exact Option.noConfusion hu
        · rw [if_neg hq] at h
          injection h with h
          exact h.symm
      | error e =>
        rw [hf] at h
        cases e with
        | valueError => simp only [] at h; injection h with h; exact h.symm
        | typeError => simp only [] at h; exact Except.noConfusion h
        | attributeError => simp only [] at h; exact Except.noConfusion h

/-! ### Tracking `MC` through the rest of the pipeline -/

/-- The imdbRating step never touches `MC`. -/
theorem getR_MC_after_imdbtop (d : List (String × PyVal)) (r1 r2 : Ratings)
    (h : step_imdbtop d r1 = .ok r2) : getR r2 "MC" = getR r1 "MC" := by
  rcases step_imdbtop_ok d r1 r2 h with he | ⟨w, _, he⟩
  · rw [he]
  · rw [he]; exact getR_setR_ne _ _ _ _ (by decide)

/-- The Trakt fallback never touches `MC`. -/
theorem getR_MC_after_fallback (d : List (String × PyVal)) (r3 rs : Ratings)
    (h : step_traktFallback d r3 = .ok rs) : getR rs "MC" = getR r3 "MC" := by
  rcases step_traktFallback_ok d r3 rs h with he | ⟨w, _, he⟩
  · rw [he]
  · rw [he]; exact getR_setR_ne _ _ _ _ (by decide)

/-- A populated `MC` survives the whole entry loop unchanged. -/
theorem fold_MC_some (entries : List PyVal) (r2 r3 : Ratings) (q : ℚ)
    (h4 : List.foldlM processEntry r2 entries = .ok r3)
    (hmc : getR r2 "MC" = some q) : getR r3 "MC" = some q := by
  refine foldlM_processEntry_inv (fun acc => getR acc "MC" = some q) ?_ entries r2 r3 hmc h4
  intro acc r acc' ha hpe
  rcases processEntry_ok acc r acc' hpe with he | ⟨src, score, he⟩
  · rw [he]; exact ha
  · rw [he]; exact applyRules_MC_pres acc src score q ha

/-- If every `MC` value so far exceeds ten, that stays true through the
entry loop (fresh `MC` writes are filtered at ten). -/
theorem fold_MC_gt10 (entries : List PyVal) (r2 r3 : Ratings)
    (h4 : List.foldlM processEntry r2 entries = .ok r3)
    (hinv : ∀ m, getR r2 "MC" = some m → 10 < m) :
    ∀ m, getR r3 "MC" = some m → 10 < m := by
  refine foldlM_processEntry_inv (fun acc => ∀ m, getR acc "MC" = some m → 10 < m) ?_ entries r2 r3 hinv h4
  intro acc r acc' ha hpe m hm
  rcases processEntry_ok acc r acc' hpe with he | ⟨src, score, he⟩
  · rw [he] at hm; exact ha m hm
  · rw [he] at hm
    rcases applyRules_MC_new acc src score m hm with h' | h'
    · exact ha m h'
    · exact h'

/-! ### Well-typed payloads never raise -/

/-- A top-level field value `float` can digest without a `TypeError`. -/
def wellTypedTop : PyVal → Bool
  | .vstr _ => true
  | .vnum _ => true
  | _ => false

/-- An entry the loop can digest without raising: a dict whose `source`, if
present, is a string. -/
def wellTypedEntry : PyVal → Bool
  | .vdict kvs =>
    (match dictGet kvs "source" with
     | none => true
     | some (.vstr _) => true
     | some _ => false)
  | _ => false

/-- The `ratings` field, when present, is a list of well-typed entries. -/
def wellTypedRatingsField : Option PyVal → Bool
  | none => true
  | some (.vlist rs) => rs.all wellTypedEntry
  | some _ => false

/-- A payload on which no uncaught exception is possible: the special
top-level fields are strings or numbers and `ratings` is a list of
well-typed entries. -/
def wellTypedPayload (d : List (String × PyVal)) : Bool :=
  (match dictGet d "Metascore" with
   | none => true
   | some v => wellTypedTop v) &&
  (match dictGet d "imdbRating" with
   | none => true
   | some v => wellTypedTop v) &&
  (match dictGet d "score" with
   | none => true
   | some v => wellTypedTop v) &&
  wellTypedRatingsField (dictGet d "ratings")

theorem pyFloat_wt (v : PyVal) (h : wellTypedTop v = true) :
    (∃ q, pyFloat v = .ok q) ∨ pyFloat v = .error .valueError := by
  cases v with
  | vnum q => exact Or.inl ⟨q, rfl⟩
  | vstr s =>
    cases hpc : parseFloatChars s.data with
    | some q => exact Or.inl ⟨q, by simp [pyFloat, hpc]⟩
    | none => exact Or.inr (by simp [pyFloat, hpc])
  | vnone => exact absurd h (by simp [wellTypedTop])
  | vbool b => exact Or.inl ⟨if b then 1 else 0, rfl⟩
  | vlist xs => exact absurd h (by simp [wellTypedTop])
  | vdict kvs => exact absurd h (by simp [wellTypedTop])

theorem step_metascore_total (d : List (String × PyVal)) (acc : Ratings)
    (hw : (match dictGet d "Metascore" with
           | none => true
           | some v => wellTypedTop v) = true) :
    ∃ acc', step_metascore d acc = .ok acc' := by
  unfold step_metascore
  cases hdg : dictGet d "Metascore" with
  | none => exact ⟨acc, rfl⟩
  | some v =>
    rw [hdg] at hw
    simp only []
    by_cases hna : isNA v = true
    · rw [if_pos hna]; exact ⟨acc, rfl⟩
    · rw [if_neg hna]
      rcases pyFloat_wt v hw with ⟨q, hf⟩ | hf
      · rw [hf]; exact ⟨_, rfl⟩
      · rw [hf]; exact ⟨acc, rfl⟩

theorem step_imdbtop_total (d : List (String × PyVal)) (acc : Ratings)
    (hw : (match dictGet d "imdbRating" with
           | none => true
           | some v => wellTypedTop v) = true) :
    ∃ acc', step_imdbtop d acc = .ok acc' := by
  unfold step_imdbtop
  cases hdg : dictGet d "imdbRating" with
  | none => exact ⟨acc, rfl⟩
  | some v =>
    rw [hdg] at hw
    simp only []
    by_cases hna : isNA v = true
    · rw [if_pos hna]; exact ⟨acc, rfl⟩
    · rw [if_neg hna]
      rcases pyFloat_wt v hw with ⟨q, hf⟩ | hf
      · rw [hf]; exact ⟨_, rfl⟩
      · rw [hf]; exact ⟨acc, rfl⟩

theorem step_traktFallback_total (d : List (String × PyVal)) (acc : Ratings)
    (hw : (match dictGet d "score" with
           | none => true
           | some v => wellTypedTop v) = true) :
    ∃ acc', step_traktFallback d acc = .ok acc' := by
  unfold step_traktFallback
  cases hdg : dictGet d "score" with
  | none => exact ⟨acc, rfl⟩
  | some v =>
    rw [hdg] at hw
    simp only []
    by_cases hc : pyTruthy v = true ∧ memR acc "TR" = false
    · rw [if_pos hc]
      rcases pyFloat_wt v hw with ⟨q, hf⟩ | hf
      · rw [hf]; exact ⟨_, rfl⟩
      · rw [hf]; exact ⟨acc, rfl⟩
    · rw [if_neg hc]; exact ⟨acc, rfl⟩

theorem processEntry_total (r : PyVal) (hr : wellTypedEntry r = true)
    (acc : Ratings) : ∃ acc', processEntry acc r = .ok acc' := by
  cases r with
  | vdict kvs =>
    unfold processEntry
    unfold wellTypedEntry at hr
    simp only [] at hr
    simp only [pyGetDict]
    cases hs : dictGet kvs "source" with
    | none =>
      simp only [hs, Option.getD_none, pyLowerV]
      exact ⟨_, rfl⟩
    | some sv =>
      rw [hs] at hr
      cases sv with
      | vstr s =>
        simp only [hs, Option.getD_some, pyLowerV]
        exact ⟨_, rfl⟩
      | vnone => exact absurd hr (by simp)
      | vbool b => exact absurd hr (by simp)
      | vnum q => exact absurd hr (by simp)
      | vlist xs => exact absurd hr (by simp)
      | vdict kvs2 => exact absurd hr (by simp)
  | vnone => exact absurd hr (by simp [wellTypedEntry])
  | vbool b => exact absurd hr (by simp [wellTypedEntry])
  | vnum q => exact absurd hr (by simp [wellTypedEntry])
  | vstr s => exact absurd hr (by simp [wellTypedEntry])
  | vlist xs => exact absurd hr (by simp [wellTypedEntry])

theorem fold_total (entries : List PyVal)
    (hw : ∀ r ∈ entries, wellTypedEntry r = true) :
    ∀ acc, ∃ r3, List.foldlM processEntry acc entries = .ok r3 := by
  induction entries with
  | nil => intro acc; exact ⟨acc, rfl⟩
  | cons x xs ih =>
    intro acc
    obtain ⟨acc', h1⟩ := processEntry_total x (hw x (by simp)) acc
    obtain ⟨r3, h2⟩ := ih (fun r hr => hw r (by simp [hr])) acc'
    exact ⟨r3, by simp only [List.foldlM_cons, h1]; exact h2⟩

theorem getRatingsList_total (d : List (String × PyVal))
    (hw : wellTypedRatingsField (dictGet d "ratings") = true) :
    ∃ entries, getRatingsList d = .ok entries ∧
      ∀ r ∈ entries, wellTypedEntry r = true := by
  unfold getRatingsList
  cases hdg : dictGet d "ratings" with
  | none => exact ⟨[], rfl, by simp⟩
  | some v =>
    rw [hdg] at hw
    cases v with
    | vlist rs =>
      refine ⟨rs, rfl, ?_⟩
      intro r hr
      simp only [wellTypedRatingsField] at hw
      exact List.all_eq_true.mp hw r hr
    | vnone => simp [wellTypedRatingsField] at hw
    | vbool b => simp [wellTypedRatingsField] at hw
    | vnum q => simp [wellTypedRatingsField] at hw
    | vstr s => simp [wellTypedRatingsField] at hw
    | vdict kvs => simp [wellTypedRatingsField] at hw

/-- A well-typed payload is parsed to completion: no exception escapes. -/
theorem parse_total (d : List (String × PyVal)) (hw : wellTypedPayload d = true) :
    ∃ rs, parse_mdblist_ratings (some d) = .ok rs := by
  unfold wellTypedPayload at hw
  simp only [Bool.and_eq_true] at hw
  obtain ⟨⟨⟨h1, h2⟩, h3⟩, h4⟩ := hw
  by_cases he : d.isEmpty = true
  · exact ⟨[], by simp [parse_mdblist_ratings, he]⟩
  · obtain ⟨r1, hr1⟩ := step_metascore_total d [] h1
    obtain ⟨r2, hr2⟩ := step_imdbtop_total d r1 h2
    obtain ⟨entries, hent, hwts⟩ := getRatingsList_total d h4
    obtain ⟨r3, hr3⟩ := fold_total entries hwts r2
    obtain ⟨rs, hrs⟩ := step_traktFallback_total d r3 h3
    refine ⟨rs, ?_⟩
    simp only [parse_mdblist_ratings, he, if_false, hr1, hr2, hent, hr3, hrs]
    simp

/-! ### Value-parsing lemmas: the percent and slash rules -/

theorem removePct_removePct (cs : List Char) :
    removePct (removePct cs) = removePct cs := by
  unfold removePct
  rw [List.filter_filter]
  simp

/-- Percent signs are immaterial to value parsing wherever they occur:
the code removes them all before parsing. -/
theorem parseCleanChars_removePct (cs : List Char) :
    parseCleanChars (removePct cs) = parseCleanChars cs := by
  unfold parseCleanChars
  rw [removePct_removePct]

theorem ne_of_isDig (c d : Char) (h : isDig c = true) (hd : isDig d = false) :
    c ≠ d := by
  intro he
  rw [he, hd] at h
  exact Bool.noConfusion h

theorem pySpace_of_isDig (c : Char) (h : isDig c = true) : pySpace c = false := by
  unfold isDig at h
  rw [decide_eq_true_eq] at h
  simp only [pySpace, decide_eq_false_iff_not]
  rintro (rfl | rfl | rfl | rfl | rfl | rfl) <;> exact absurd h (by decide)

theorem removePct_of_digits (a : List Char) (ha : ∀ c ∈ a, isDig c = true) :
    removePct a = a := by
  unfold removePct
  rw [List.filter_eq_self]
  intro c hc
  exact decide_eq_true (ne_of_isDig c '%' (ha c hc) (by decide))

theorem dropWhile_cons_false (p : Char → Bool) (c : Char) (cs : List Char)
    (hc : p c = false) : (c :: cs).dropWhile p = c :: cs := by
  simp [List.dropWhile_cons, hc]

theorem dropWhile_append_stop (p : Char → Bool) (xs : List Char) (y : Char)
    (ys : List Char) (hy : p y = false) :
    (xs ++ y :: ys).dropWhile p = xs.dropWhile p ++ y :: ys := by
  induction xs with
  | nil => simp [List.dropWhile_cons, hy]
  | cons c cs ih =>
    by_cases hc : p c = true
    · simp [List.dropWhile_cons, hc, ih]
    · simp [List.dropWhile_cons, hc]

theorem takeWhile_append_stop (p : Char → Bool) (xs : List Char) (y : Char)
    (ys : List Char) (hxs : ∀ c ∈ xs, p c = true) (hy : p y = false) :
    (xs ++ y :: ys).takeWhile p = xs := by
  induction xs with
  | nil => simp [List.takeWhile_cons, hy]
  | cons c cs ih =>
    have hc := hxs c (by simp)
    simp only [List.cons_append, List.takeWhile_cons, hc, if_true]
    rw [ih (fun c2 hc2 => hxs c2 (by simp [hc2]))]

/-- `float` of a nonempty all-digit character list is its numeral value. -/
theorem parseFloatChars_digits (a : List Char) (ha : ∀ c ∈ a, isDig c = true)
    (hne : a ≠ []) : parseFloatChars a = some ((natOfDigits a : ℚ)) := by
  have hstrip : pyStrip a = a := by
    unfold pyStrip
    have h1 : a.dropWhile pySpace = a := by
      cases a with
      | nil => rfl
      | cons c cs => exact dropWhile_cons_false _ _ _ (pySpace_of_isDig c (ha c (by simp)))
    rw [h1]
    have h2 : a.reverse.dropWhile pySpace = a.reverse := by
      cases hr : a.reverse with
      | nil => rfl
      | cons c cs =>
        refine dropWhile_cons_false _ _ _ (pySpace_of_isDig c (ha c ?_))
        rw [← List.mem_reverse, hr]
        simp
    rw [h2, List.reverse_reverse]
  unfold parseFloatChars
  rw [hstrip]
  split
  · exact absurd (ha '+' (List.mem_cons_self _ _)) (by decide)
  · exact absurd (ha '-' (List.mem_cons_self _ _)) (by decide)
  · unfold parseFloatCore
    rw [show a.dropWhile isDig = [] from List.dropWhile_eq_nil_iff.mpr ha]
    simp only []
    rw [show a.takeWhile isDig = a from List.takeWhile_eq_self_iff.mpr ha]
    rw [if_neg hne]

theorem pyStrip_digits_slash (a t : List Char) (ha : ∀ c ∈ a, isDig c = true)
    (hne : a ≠ []) :
    pyStrip (a ++ '/' :: t) = a ++ '/' :: (t.reverse.dropWhile pySpace).reverse := by
  unfold pyStrip
  have h1 : (a ++ '/' :: t).dropWhile pySpace = a ++ '/' :: t := by
    cases a with
    | nil => exact absurd rfl hne
    | cons c a2 =>
      have hc : pySpace c = false := pySpace_of_isDig c (ha c (by simp))
      simpa using dropWhile_cons_false pySpace c (a2 ++ '/' :: t) hc
  rw [h1]
  rw [show (a ++ '/' :: t).reverse = t.reverse ++ '/' :: a.reverse by simp]
  rw [dropWhile_append_stop pySpace t.reverse '/' a.reverse (by decide)]
  simp

/-- The slash rule: a value made of digits, a slash and anything else
parses to the numeral left of the slash. -/
theorem parseCleanChars_slash (a b : List Char) (ha : ∀ c ∈ a, isDig c = true)
    (hne : a ≠ []) :
    parseCleanChars (a ++ '/' :: b) = some ((natOfDigits a : ℚ)) := by
  unfold parseCleanChars
  have h1 : removePct (a ++ '/' :: b) = a ++ '/' :: removePct b := by
    unfold removePct
    rw [List.filter_append]
    rw [show List.filter (fun c => decide (c ≠ '%')) a = a from
      List.filter_eq_self.mpr
        (fun c hc => decide_eq_true (ne_of_isDig c '%' (ha c hc) (by decide)))]
    simp [List.filter_cons]
  rw [h1, pyStrip_digits_slash a (removePct b) ha hne]
  have hmem : '/' ∈ a ++ '/' :: ((removePct b).reverse.dropWhile pySpace).reverse := by
    simp
  rw [if_pos ?hc]
  case hc =>
    exact List.elem_iff.mpr hmem
  rw [takeWhile_append_stop _ a '/' _
    (fun c hc => decide_eq_true (ne_of_isDig c '/' (ha c hc) (by decide)))
    (by simp)]
  exact parseFloatChars_digits a ha hne

/-! ### Claim-statement support definitions -/

/-- Entry-value parsing as claim C8 words it: strip ONE TRAILING percent
sign if present, then split at the first slash (numerator) or parse the
whole cleaned string as a float. -/
def parseValueClaimed (s : String) : Option ℚ :=
  let c := if s.endsWith "%" then s.dropRight 1 else s
  if c.data.contains '/' then parseFloatChars (c.data.takeWhile (fun ch => ch ≠ '/'))
  else parseFloatChars c.data

/-- Whether an id value is already recorded under an id type in the
registry snapshot. -/
def valInSnap (snap : List (String × List String)) (t v : String) : Bool :=
  match lookupSnap snap t with
  | some l => l.contains v
  | none => false

/-- The desired id pairs of claim C4: the IMDb pair always, the TVDB pair
only for TV items with a truthy TVDB id. -/
def desiredPairs (mediaType imdbId : String) (payloadTvdb : Option String) :
    List (String × String) :=
  ("imdb", imdbId) ::
    (if mediaType = "tv" ∧ truthyStr payloadTvdb = true then
      [("tvdb", payloadTvdb.getD "")] else [])

theorem mappingsToSubmit_eq_filter (i : String) (tvdbId : Option String)
    (snap : List (String × List String)) :
    mappingsToSubmit i tvdbId snap =
      List.filter (fun p => valInSnap snap p.1 p.2 = false)
        (("imdb", i) ::
          (if truthyStr tvdbId = true then [("tvdb", tvdbId.getD "")] else [])) := by
  unfold mappingsToSubmit
  by_cases ht : truthyStr tvdbId = true <;>
    by_cases hiv : valInSnap snap "imdb" i = true <;>
      by_cases htv : valInSnap snap "tvdb" (tvdbId.getD "") = true <;>
        simp_all [valInSnap, List.filter_cons]

/-! ### The claims -/

/-- **C3** (confirmed).  The ratings partition of `process_item` puts every
candidate key in exactly one of `new_ratings` / `existing_ratings`: the two
key sets are disjoint, their union is the candidate key set, and membership
is decided by comparing the upper-cased key with the existing-labels set. -/
theorem claim3_ratings_partition (rs : Ratings) (ex : List String) (k : String) :
    ((k ∈ (partitionNew rs ex).map Prod.fst ∨ k ∈ (partitionExisting rs ex).map Prod.fst) ↔
      k ∈ rs.map Prod.fst) ∧
    ¬(k ∈ (partitionNew rs ex).map Prod.fst ∧ k ∈ (partitionExisting rs ex).map Prod.fst) ∧
    (k ∈ (partitionNew rs ex).map Prod.fst ↔
      k ∈ rs.map Prod.fst ∧ ex.contains k.toUpper = false) ∧
    (k ∈ (partitionExisting rs ex).map Prod.fst ↔
      k ∈ rs.map Prod.fst ∧ ex.contains k.toUpper = true) := by
  have hN : k ∈ (partitionNew rs ex).map Prod.fst ↔
      k ∈ rs.map Prod.fst ∧ ex.contains k.toUpper = false := by
    unfold partitionNew
    simp only [List.mem_map, List.mem_filter]
    constructor
    · rintro ⟨p, ⟨hp, hpred⟩, rfl⟩
      exact ⟨⟨p, hp, rfl⟩, by simpa using hpred⟩
    · rintro ⟨⟨p, hp, rfl⟩, hc⟩
      exact ⟨p, ⟨hp, by simpa using hc⟩, rfl⟩
  have hE : k ∈ (partitionExisting rs ex).map Prod.fst ↔
      k ∈ rs.map Prod.fst ∧ ex.contains k.toUpper = true := by
    unfold partitionExisting
    simp only [List.mem_map, List.mem_filter]
    constructor
    · rintro ⟨p, ⟨hp, hpred⟩, rfl⟩
      exact ⟨⟨p, hp, rfl⟩, hpred⟩
    · rintro ⟨⟨p, hp, rfl⟩, hc⟩
      exact ⟨p, ⟨hp, hc⟩, rfl⟩
  refine ⟨?_, ?_, hN, hE⟩
  · constructor
    · rintro (h | h)
      · exact (hN.mp h).1
      · exact (hE.mp h).1
    · intro h
      by_cases hc : ex.contains k.toUpper = true
      · exact Or.inr (hE.mpr ⟨h, hc⟩)
      · exact Or.inl (hN.mpr ⟨h, by simpa using hc⟩)
  · rintro ⟨h1, h2⟩
    have c1 := (hN.mp h1).2
    have c2 := (hE.mp h2).2
    rw [c1] at c2
    exact Bool.noConfusion c2

/-- **C4** (confirmed).  The mapping-selection slice of `process_item`
submits exactly the desired pairs whose value is absent from the snapshot
under exact string comparison, never a pair with an empty value, and a
TVDB pair only for TV items. -/
theorem claim4_mapping_diff (mt : String) (imdbRaw payloadTvdb : Option String)
    (snap : List (String × List String)) (res : List (String × String))
    (h : selectMappings mt imdbRaw payloadTvdb snap = some res) :
    (∃ i, imdbRaw = some i ∧ i ≠ "" ∧
      res = (desiredPairs mt i payloadTvdb).filter
        (fun p => valInSnap snap p.1 p.2 = false)) ∧
    (∀ p ∈ res, p.2 ≠ "") := by
  cases imdbRaw with
  | none => exact Option.noConfusion h
  | some i =>
    unfold selectMappings at h
    simp only [] at h
    by_cases hi : i = ""
    · rw [if_pos hi] at h
      exact Option.noConfusion h
    · rw [if_neg hi] at h
      injection h with h
      have hdes : desiredPairs mt i payloadTvdb =
          ("imdb", i) ::
            (if truthyStr (if mt = "tv" then payloadTvdb else none) = true then
              [("tvdb", (if mt = "tv" then payloadTvdb else none).getD "")] else []) := by
        unfold desiredPairs
        by_cases hmt : mt = "tv"
        · simp [hmt]
        · simp [hmt, truthyStr]
      have hres : res = (desiredPairs mt i payloadTvdb).filter
          (fun p => valInSnap snap p.1 p.2 = false) := by
        rw [hdes, ← mappingsToSubmit_eq_filter, ← h]
      refine ⟨⟨i, rfl, hi, hres⟩, ?_⟩
      intro p hp
      rw [hres] at hp
      have hp2 := List.mem_of_mem_filter hp
      rw [hdes] at hp2
      rcases List.mem_cons.mp hp2 with hh | hh
      · rw [hh]
        exact hi
      · by_cases hc : truthyStr (if mt = "tv" then payloadTvdb else none) = true
        · rw [if_pos hc] at hh
          simp only [List.mem_singleton] at hh
          rw [hh]
          cases hpt : (if mt = "tv" then payloadTvdb else none) with
          | none => rw [hpt] at hc; exact absurd hc (by simp [truthyStr])
          | some v =>
            rw [hpt] at hc
            simp only [truthyStr, decide_eq_true_eq] at hc
            simpa using hc
        · rw [if_neg hc] at hh
          simp at hh

/-- Closed witness for C4 at the specification's own example: desired
`imdb tt1` (present) and `tvdb 100` (absent) for a TV item yields exactly
the TVDB pair. -/
theorem claim4_mapping_diff_witness :
    (∃ i, (some "tt1" : Option String) = some i ∧ i ≠ "" ∧
      [("tvdb", "100")] = (desiredPairs "tv" i (some "100")).filter
        (fun p => valInSnap [("imdb", ["tt1"]), ("tvdb", [])] p.1 p.2 = false)) ∧
    (∀ p ∈ [("tvdb", "100")], p.2 ≠ "") :=
  claim4_mapping_diff "tv" (some "tt1") (some "100")
    [("imdb", ["tt1"]), ("tvdb", [])] [("tvdb", "100")] (by rfl)

/-- **C1** counterexample.  Two `Rotten Tomatoes` entries in one pass: the
claimed first-write-wins rule predicts `RT == 80`, but the `RT` assignment
(line 185) has no already-set guard, so the later entry's 60 overwrites the
earlier 80. -/
theorem claim1_counterexample :
    parse_mdblist_ratings (some [("ratings", .vlist
      [.vdict [("source", .vstr "Rotten Tomatoes"), ("value", .vstr "80")],
       .vdict [("source", .vstr "Rotten Tomatoes"), ("value", .vstr "60")]])]) =
      .ok [("RT", 60)] ∧ (60 : ℚ) ≠ 80 := by
  constructor
  · with_unfolding_all rfl
  · norm_num

/-- **C1** amended.  First-write-wins holds only where the code guards it:
a populated `IM` or `MC` is never overwritten by a list entry, and the
top-level `score` fallback never overwrites a populated `TR`; but the
`RT`, `PC`, `LB` and list-`TR` assignments are unguarded, so for those
codes the LAST successful write in the pass wins. -/
theorem claim1_first_write_amended :
    (∀ acc src v x, getR acc "IM" = some x → getR (applyRules acc src v) "IM" = some x) ∧
    (∀ acc src v x, getR acc "MC" = some x → getR (applyRules acc src v) "MC" = some x) ∧
    (∀ d acc, (getR acc "TR").isSome = true → step_traktFallback d acc = .ok acc) ∧
    (∀ acc v, 0 < v → getR (applyRules acc "rotten tomatoes" v) "RT" = some v) ∧
    (∀ acc v, 0 < v → getR (applyRules acc "rotten tomatoes audience" v) "PC" = some v) ∧
    (∀ acc v, 0 < lbScale v →
      getR (applyRules acc "letterboxd" v) "LB" = some (round1 (lbScale v))) ∧
    (∀ acc v, 0 < scale10 v →
      getR (applyRules acc "trakt" v) "TR" = some (round1 (scale10 v))) := by
  refine ⟨applyRules_IM_pres, applyRules_MC_pres, step_traktFallback_of_TR_set,
    ?_, ?_, ?_, ?_⟩
  · intro acc v hv
    unfold applyRules
    rw [if_neg (by decide), if_pos rfl, if_pos (by decide), if_pos hv, getR_setR_self]
  · intro acc v hv
    unfold applyRules
    rw [if_neg (by decide), if_neg (by decide), if_pos (by decide), if_pos hv,
      getR_setR_self]
  · intro acc v hv
    unfold applyRules
    rw [if_neg (by decide), if_neg (by decide), if_neg (by decide), if_neg (by decide),
      if_pos (by decide), if_pos hv, getR_setR_self]
  · intro acc v hv
    unfold applyRules
    rw [if_neg (by decide), if_neg (by decide), if_neg (by decide), if_neg (by decide),
      if_neg (by decide), if_pos (by decide), if_pos hv, getR_setR_self]

/-- Closed witness for the amended C1. -/
theorem claim1_first_write_amended_witness :
    getR (applyRules [("MC", 75)] "metacritic" 53) "MC" = some 75 ∧
    getR (applyRules [("RT", 80)] "rotten tomatoes" 60) "RT" = some 60 :=
  ⟨claim1_first_write_amended.2.1 [("MC", 75)] "metacritic" 53 75 (by rfl),
   claim1_first_write_amended.2.2.2.1 [("RT", 80)] 60 (by norm_num)⟩

/-- **C10** (confirmed).  Each entry is dispatched to at most one source
code: the `if`/`elif` chain tests the rules in the fixed order `IM`, `RT`,
`PC`, `MC`, `LB`, `TR` and only the first match applies; in particular a
source containing both "internet movie database" and "trakt" is an `IM`
candidate and never writes `TR`. -/
theorem claim10_single_dispatch :
    (∀ acc src v c, srcCode src ≠ some c →
      getR (applyRules acc src v) c = getR acc c) ∧
    srcCode "internet movie database trakt" = some "IM" ∧
    (∀ acc v, getR (applyRules acc "internet movie database trakt" v) "TR" =
      getR acc "TR") := by
  refine ⟨applyRules_untouched, by decide, ?_⟩
  intro acc v
  exact applyRules_untouched acc "internet movie database trakt" v "TR" (by decide)

/-- Closed witness for C10. -/
theorem claim10_single_dispatch_witness :
    getR (applyRules [] "some other site" 42) "RT" = getR [] "RT" :=
  claim10_single_dispatch.1 [] "some other site" 42 "RT" (by decide)

/-- **C9** (confirmed).  A Letterboxd-dispatched entry is rescaled with
`×20` when the value is at most 5, `×10` when at most 10, and stored
unchanged otherwise, rounded to one decimal, with the store guarded by
positivity of the (unrounded) rescaled value; the spec's three examples
4.2 ↦ 84, 7.5 ↦ 75 and 92 ↦ 92 all hold. -/
theorem claim9_letterboxd (src : String) (acc : Ratings) (v : ℚ)
    (h1 : strContains src "letterboxd" = true)
    (h2 : strContains src "internet movie database" = false)
    (h3 : src ≠ "rotten tomatoes")
    (h4 : ¬(strContains src "tomatoes" = true ∧ strContains src "audience" = true))
    (h5 : src ≠ "metacritic") :
    (applyRules acc src v =
      if 0 < lbScale v then setR acc "LB" (round1 (lbScale v)) else acc) ∧
    (lbScale v = if v ≤ 5 then v * 20 else if v ≤ 10 then v * 10 else v) ∧
    parse_mdblist_ratings (some [("ratings", .vlist
      [.vdict [("source", .vstr "Letterboxd"), ("value", .vnum (4.2 : ℚ))]])]) =
      .ok [("LB", 84)] ∧
    parse_mdblist_ratings (some [("ratings", .vlist
      [.vdict [("source", .vstr "Letterboxd"), ("value", .vnum (7.5 : ℚ))]])]) =
      .ok [("LB", 75)] ∧
    parse_mdblist_ratings (some [("ratings", .vlist
      [.vdict [("source", .vstr "Letterboxd"), ("value", .vnum (92 : ℚ))]])]) =
      .ok [("LB", 92)] := by
  refine ⟨?_, rfl, by with_unfolding_all rfl, by with_unfolding_all rfl,
    by with_unfolding_all rfl⟩
  unfold applyRules
  rw [if_neg (by simp [h2]), if_neg h3, if_neg h4, if_neg h5, if_pos h1]

/-- Closed witness for C9 at source "letterboxd" and value 4.2. -/
theorem claim9_letterboxd_witness :
    (applyRules [] "letterboxd" (4.2 : ℚ) =
      if 0 < lbScale (4.2 : ℚ) then setR [] "LB" (round1 (lbScale (4.2 : ℚ))) else []) ∧
    (lbScale (4.2 : ℚ) =
      if (4.2 : ℚ) ≤ 5 then (4.2 : ℚ) * 20
      else if (4.2 : ℚ) ≤ 10 then (4.2 : ℚ) * 10 else (4.2 : ℚ)) ∧
    parse_mdblist_ratings (some [("ratings", .vlist
      [.vdict [("source", .vstr "Letterboxd"), ("value", .vnum (4.2 : ℚ))]])]) =
      .ok [("LB", 84)] ∧
    parse_mdblist_ratings (some [("ratings", .vlist
      [.vdict [("source", .vstr "Letterboxd"), ("value", .vnum (7.5 : ℚ))]])]) =
      .ok [("LB", 75)] ∧
    parse_mdblist_ratings (some [("ratings", .vlist
      [.vdict [("source", .vstr "Letterboxd"), ("value", .vnum (92 : ℚ))]])]) =
      .ok [("LB", 92)] :=
  claim9_letterboxd "letterboxd" [] (4.2 : ℚ) (by decide) (by decide) (by decide)
    (by decide) (by decide)

/-- **C5** (confirmed).  Without a usable top-level Metascore, any `MC` the
parse returns came from a `metacritic` entry and exceeds 10 (values at most
10 are discarded as likely user scores: "5.3" stores nothing, "53" stores
53); with a usable top-level Metascore parsing to `q > 0`, the final `MC`
is exactly `q`, untouched by the entry list. -/
theorem claim5_metacritic (d : List (String × PyVal)) (rs : Ratings)
    (hp : parse_mdblist_ratings (some d) = .ok rs) :
    (usableMetascore d = none → ∀ m, getR rs "MC" = some m → 10 < m) ∧
    (∀ q, usableMetascore d = some q → getR rs "MC" = some q) ∧
    parse_mdblist_ratings (some [("ratings", .vlist
      [.vdict [("source", .vstr "Metacritic"), ("value", .vstr "5.3")]])]) = .ok [] ∧
    parse_mdblist_ratings (some [("ratings", .vlist
      [.vdict [("source", .vstr "Metacritic"), ("value", .vstr "53")]])]) =
      .ok [("MC", 53)] := by
  refine ⟨?_, ?_, by with_unfolding_all rfl, by with_unfolding_all rfl⟩
  · intro hu m hm
    rcases parse_ok_cases (some d) rs hp with ⟨hrs, _⟩ |
      ⟨d2, r1, r2, entries, r3, hd, hne, h1, h2, h3, h4, h5⟩
    · rw [hrs] at hm
      exact absurd hm (by simp [getR])
    · injection hd with hd
      subst hd
      have hr1 : r1 = [] := step_metascore_of_unusable _ [] r1 hu h1
      have hmc2 : getR r2 "MC" = none := by
        rw [getR_MC_after_imdbtop _ r1 r2 h2, hr1]
        rfl
      have hinv3 := fold_MC_gt10 entries r2 r3 h4
        (fun m2 hm2 => absurd hm2 (by rw [hmc2]; simp))
      rw [getR_MC_after_fallback _ r3 rs h5] at hm
      exact hinv3 m hm
  · intro q hu
    rcases parse_ok_cases (some d) rs hp with ⟨hrs, hempty⟩ |
      ⟨d2, r1, r2, entries, r3, hd, hne, h1, h2, h3, h4, h5⟩
    · rcases hempty with hnone | ⟨d2, hd2, hemp⟩
      · exact Option.noConfusion hnone
      · injection hd2 with hd2
        subst hd2
        rw [List.isEmpty_iff.mp hemp] at hu
        exact Option.noConfusion hu
    · injection hd with hd
      subst hd
      have hr1 := step_metascore_of_usable _ [] q hu
      rw [h1] at hr1
      injection hr1 with hr1
      have hmc1 : getR r1 "MC" = some q := by
        rw [hr1, getR_setR_self]
      have hmc2 : getR r2 "MC" = some q := by
        rw [getR_MC_after_imdbtop _ r1 r2 h2]
        exact hmc1
      have hmc3 := fold_MC_some entries r2 r3 q h4 hmc2
      rw [getR_MC_after_fallback _ r3 rs h5]
      exact hmc3

/-- Closed witness for C5 at the priority example: top-level Metascore 75
with a Metacritic list entry 8.5 ends with `MC == 75`. -/
theorem claim5_metacritic_witness :
    (usableMetascore [("Metascore", PyVal.vstr "75"), ("ratings", .vlist
        [.vdict [("source", .vstr "Metacritic"), ("value", .vstr "8.5")]])] = none →
      ∀ m, getR [("MC", 75)] "MC" = some m → 10 < m) ∧
    (∀ q, usableMetascore [("Metascore", PyVal.vstr "75"), ("ratings", .vlist
        [.vdict [("source", .vstr "Metacritic"), ("value", .vstr "8.5")]])] = some q →
      getR [("MC", 75)] "MC" = some q) ∧
    parse_mdblist_ratings (some [("ratings", .vlist
      [.vdict [("source", .vstr "Metacritic"), ("value", .vstr "5.3")]])]) = .ok [] ∧
    parse_mdblist_ratings (some [("ratings", .vlist
      [.vdict [("source", .vstr "Metacritic"), ("value", .vstr "53")]])]) =
      .ok [("MC", 53)] :=
  claim5_metacritic
    [("Metascore", PyVal.vstr "75"), ("ratings", .vlist
      [.vdict [("source", .vstr "Metacritic"), ("value", .vstr "8.5")]])]
    [("MC", 75)] (by with_unfolding_all rfl)

/-- **C2** counterexample.  A payload whose `Metascore` is JSON null makes
`float(None)` raise `TypeError`, which the `except ValueError` handler
does not catch: the normalizer raises. -/
theorem claim2_counterexample :
    parse_mdblist_ratings (some [("Metascore", PyVal.vnone)]) =
      .error .typeError := rfl

/-- **C2** amended.  A `None` or empty payload yields an empty mapping, a
payload whose special top-level fields are strings or numbers and whose
`ratings` is a list of dicts with string (or absent) source names never
raises, and malformed entries (missing source, null value, non-numeric
value) are skipped while later entries are still processed; but ill-typed
values (e.g. a null `Metascore`) raise an uncaught exception. -/
theorem claim2_never_raises_amended :
    parse_mdblist_ratings none = .ok [] ∧
    parse_mdblist_ratings (some []) = .ok [] ∧
    (∀ d, wellTypedPayload d = true →
      ∃ rs, parse_mdblist_ratings (some d) = .ok rs) ∧
    parse_mdblist_ratings (some [("ratings", .vlist
      [.vdict [("value", .vstr "99")],
       .vdict [("source", .vstr "Metacritic"), ("value", PyVal.vnone)],
       .vdict [("source", .vstr "Metacritic"), ("value", .vstr "not a number")],
       .vdict [("source", .vstr "Metacritic"), ("value", .vstr "53")]])]) =
      .ok [("MC", 53)] :=
  ⟨rfl, rfl, parse_total, by with_unfolding_all rfl⟩

/-- Closed witness for the amended C2 on a well-typed payload. -/
theorem claim2_never_raises_amended_witness :
    ∃ rs, parse_mdblist_ratings (some [("Metascore", PyVal.vstr "75"),
      ("imdbRating", PyVal.vstr "8.1")]) = .ok rs :=
  claim2_never_raises_amended.2.2.1
    [("Metascore", PyVal.vstr "75"), ("imdbRating", PyVal.vstr "8.1")] (by decide)

/-- **C6** counterexample.  No upper clamp exists (Metascore 500 is stored
as 500 > 100) and rounding can store an exact 0 (IMDb entry 0.001 stores
IM = 0), so `0 < score <= 100` fails on both sides. -/
theorem claim6_counterexample :
    parse_mdblist_ratings (some [("Metascore", .vstr "500"),
      ("ratings", .vlist [.vdict [("source", .vstr "Internet Movie Database"),
        ("value", .vstr "0.001")]])]) = .ok [("MC", 500), ("IM", 0)] ∧
    ¬((500 : ℚ) ≤ 100) ∧ ¬(0 < (0 : ℚ)) := by
  refine ⟨by with_unfolding_all rfl, by norm_num, by norm_num⟩

/-- **C6** amended.  Every score a successful parse returns is nonnegative,
but no 0-100 clamp is enforced: values above 100 pass through and rounding
can produce an exact 0. -/
theorem claim6_score_range_amended :
    (∀ data rs, parse_mdblist_ratings data = .ok rs → ∀ p ∈ rs, 0 ≤ p.2) ∧
    parse_mdblist_ratings (some [("Metascore", .vstr "500")]) =
      .ok [("MC", 500)] := by
  refine ⟨parse_nonneg, ?_⟩
  with_unfolding_all rfl

/-- Closed witness for the amended C6. -/
theorem claim6_score_range_amended_witness :
    ∀ p ∈ ([("MC", (500 : ℚ))] : Ratings), 0 ≤ p.2 :=
  claim6_score_range_amended.1 (some [("Metascore", .vstr "500")])
    [("MC", 500)] (by with_unfolding_all rfl)

/-- **C7** counterexample.  A Letterboxd value of 0.001 passes the
pre-rounding positivity guard (0.02 > 0) but rounds to 0.0, which is then
stored: the returned mapping contains a score ≤ 0. -/
theorem claim7_counterexample :
    parse_mdblist_ratings (some [("ratings", .vlist
      [.vdict [("source", .vstr "Letterboxd"), ("value", .vstr "0.001")]])]) =
      .ok [("LB", 0)] ∧ ¬(0 < (0 : ℚ)) := by
  refine ⟨by with_unfolding_all rfl, by norm_num⟩

/-- **C7** amended.  Each store step writes a value only when the
pre-rounding value is strictly positive, so every newly written score is
nonnegative (the top-level Metascore path, which does not round, writes
strictly positive values); rounding can make a stored score exactly 0. -/
theorem claim7_no_negative_amended :
    (∀ acc src v p, p ∈ applyRules acc src v → p ∈ acc ∨ 0 ≤ p.2) ∧
    (∀ d acc acc', step_metascore d acc = .ok acc' → ∀ p ∈ acc', p ∈ acc ∨ 0 < p.2) ∧
    (∀ d acc acc', step_imdbtop d acc = .ok acc' → ∀ p ∈ acc', p ∈ acc ∨ 0 ≤ p.2) ∧
    (∀ d acc acc', step_traktFallback d acc = .ok acc' →
      ∀ p ∈ acc', p ∈ acc ∨ 0 ≤ p.2) := by
  refine ⟨?_, ?_, ?_, ?_⟩
  · intro acc src v p hp
    rcases applyRules_shape acc src v with he | ⟨w, hw, hcase⟩
    · rw [he] at hp
      exact Or.inl hp
    · have hgen : ∀ k, applyRules acc src v = setR acc k w → p ∈ acc ∨ 0 ≤ p.2 := by
        intro k hk
        rw [hk] at hp
        rcases mem_setR p acc k w hp with h2 | h2
        · exact Or.inl h2
        · rw [h2]
          exact Or.inr hw
      rcases hcase with ⟨he, _⟩ | he | he | ⟨he, _, _⟩ | he | he
      · exact hgen _ he
      · exact hgen _ he
      · exact hgen _ he
      · exact hgen _ he
      · exact hgen _ he
      · exact hgen _ he
  · intro d acc acc' h p hp
    rcases step_metascore_ok d acc acc' h with he | ⟨w, hw, he⟩
    · rw [he] at hp
      exact Or.inl hp
    · rw [he] at hp
      rcases mem_setR p acc _ w hp with h2 | h2
      · exact Or.inl h2
      · rw [h2]
        exact Or.inr hw
  · intro d acc acc' h p hp
    rcases step_imdbtop_ok d acc acc' h with he | ⟨w, hw, he⟩
    · rw [he] at hp
      exact Or.inl hp
    · rw [he] at hp
      rcases mem_setR p acc _ w hp with h2 | h2
      · exact Or.inl h2
      · rw [h2]
        exact Or.inr hw
  · intro d acc acc' h p hp
    rcases step_traktFallback_ok d acc acc' h with he | ⟨w, hw, he⟩
    · rw [he] at hp
      exact Or.inl hp
    · rw [he] at hp
      rcases mem_setR p acc _ w hp with h2 | h2
      · exact Or.inl h2
      · rw [h2]
        exact Or.inr hw

/-- Closed witness for the amended C7. -/
theorem claim7_no_negative_amended_witness :
    ("MC", (53 : ℚ)) ∈ ([] : Ratings) ∨ 0 ≤ (53 : ℚ) :=
  claim7_no_negative_amended.1 [] "metacritic" 53 ("MC", 53) (by decide)

/-- **C8** counterexample.  The code removes EVERY percent sign
(`replace('%','')`), not only a trailing one: the value `"%53"` parses to
53 and is stored, while the claim's trailing-only rule would fail to parse
it and skip the entry. -/
theorem claim8_counterexample :
    parseCleanChars "%53".data = some 53 ∧
    parseValueClaimed "%53" = none ∧
    parse_mdblist_ratings (some [("ratings", .vlist
      [.vdict [("source", .vstr "trakt"), ("value", .vstr "%53")]])]) =
      .ok [("TR", 53)] := by
  refine ⟨by with_unfolding_all rfl, by with_unfolding_all rfl,
    by with_unfolding_all rfl⟩

/-- **C8** amended.  Every percent sign is removed wherever it occurs (and
surrounding whitespace stripped); then a value containing a slash parses to
the numeral left of the first slash, otherwise the whole cleaned string is
parsed as a float, with unparseable entries skipped - in particular
"53/100" parses to 53. -/
theorem claim8_value_parsing_amended :
    (∀ cs : List Char, parseCleanChars (removePct cs) = parseCleanChars cs) ∧
    (∀ a b : List Char, (∀ c ∈ a, isDig c = true) → a ≠ [] →
      parseCleanChars (a ++ '/' :: b) = some ((natOfDigits a : ℚ))) ∧
    parseCleanChars "53/100".data = some 53 ∧
    parseCleanChars " 85% ".data = some 85 ∧
    parseEntryValue (.vstr "fresh") = none := by
  refine ⟨parseCleanChars_removePct, parseCleanChars_slash,
    by with_unfolding_all rfl, by with_unfolding_all rfl,
    by with_unfolding_all rfl⟩

/-- Closed witness for the amended C8. -/
theorem claim8_value_parsing_amended_witness :
    parseCleanChars (['5', '3'] ++ '/' :: ['1', '0', '0']) =
      some ((natOfDigits ['5', '3'] : ℚ)) :=
  claim8_value_parsing_amended.2.1 ['5', '3'] ['1', '0', '0'] (by decide) (by decide)

end PMDB
